import Mathlib

/-!
Verification of the parallel chunked compression orchestrator in
`src/misc/libqpl/qpl-wrappers/qpl_helper.cpp` (functions `compress`,
`decompress`, `free_qpl_context`, `wait_for_all_jobs`).

The caller-provided buffers are modelled as byte memories `Mem : Nat → Nat`
(offset to byte value); 32-bit words are stored native-endian (little-endian,
as on the x86 hosts the wrapper targets) via `u32Bytes` and read back via
`readU32`.  Machine arithmetic that can wrap (the `uint32_t` header fields,
the `size_t` subtraction producing the scratch window size) is modelled with
explicit `% 2^32` / `% 2^64`.

The DEFLATE engine behind `qpl_execute_job` / `qpl_submit_job` /
`qpl_check_job` is not part of the repository sources; it is modelled from
the spec (section 6.2) as an abstract `Engine` with a compression and a
decompression map, plus the self-termination law a complete FIRST|LAST
DEFLATE stream enjoys.  The orchestrator's data flow is deterministic given
the engine's outputs, so `compress`/`decompress` below are the success-path
functional semantics of the two drivers; the status-handling loops (busy
retry, polling, the wait-all barrier) are modelled separately as small
recursions over status schedules (`retrySubmit`, `pollSlot`,
`wait_for_all_jobs`).
-/

namespace QplHelper

/-- A byte memory: offset to byte value. -/
abbrev Mem : Type := Nat → Nat

/-- Overwrite `bs.length` bytes of `m` starting at offset `off`
(the model of `memcpy(m + off, bs, bs.length)`). -/
def mstore (m : Mem) (off : Nat) (bs : List Nat) : Mem :=
  fun i => if off ≤ i ∧ i < off + bs.length then bs.getD (i - off) 0 else m i

/-- Read `len` bytes of `m` starting at offset `off`. -/
def fetch (m : Mem) (off len : Nat) : List Nat :=
  (List.range len).map (fun i => m (off + i))

/-- The four bytes of a 32-bit word, little-endian, as `memcpy` of a
`uint32_t` lays them out on the wrapper's little-endian hosts. -/
def u32Bytes (n : Nat) : List Nat :=
  [n % 256, n / 256 % 256, n / 65536 % 256, n / 16777216 % 256]

/-- Little-endian value of a byte list. -/
def leNat (bs : List Nat) : Nat := bs.foldr (fun b acc => b + 256 * acc) 0

/-- Read a 32-bit word stored at offset `off` (model of `memcpy` into a
`uint32_t`). -/
def readU32 (m : Mem) (off : Nat) : Nat := leNat (fetch m off 4)

/-- Modelled from the spec: the engine contract of section 6.2.  The sources
of `qpl_execute_job`, `qpl_submit_job`, `qpl_check_job` and the DEFLATE
coder itself are not part of this repository; the orchestrator only relies
on the engine mapping one input block to one complete compressed stream and
back.  `selfTerm` states that a complete stream produced with
FIRST|LAST framing is self-delimiting: decompressing it with extra bytes
appended still recovers exactly the original block (the engine stops at the
end-of-stream marker).  A job succeeds when its output fits the record's
`available_out`; otherwise it reports a hard error. -/
structure Engine where
  cmp : List Nat → List Nat
  dec : List Nat → List Nat
  selfTerm : ∀ b t, dec (cmp b ++ t) = b

/-- Decompression inverts compression (the `t = []` case of `selfTerm`). -/
theorem Engine.round (E : Engine) (b : List Nat) : E.dec (E.cmp b) = b := by
  have h := E.selfTerm b []
  simpa using h

/-! A small concrete engine used to instantiate counterexamples and
witnesses: two dictionary entries that shrink, and a byte-stuffed fallback
that is self-terminating. -/

/-- Byte-stuffing: each payload byte is prefixed with marker `0`, and the
stream ends with marker `1`. -/
def stuffBytes : List Nat → List Nat
  | [] => [1]
  | x :: xs => 0 :: x :: stuffBytes xs

/-- Inverse of `stuffBytes`, stopping at the first non-`0` marker. -/
def unstuffBytes : List Nat → List Nat
  | 0 :: x :: rest => x :: unstuffBytes rest
  | _ => []

theorem unstuff_stuff (b t : List Nat) : unstuffBytes (stuffBytes b ++ t) = b := by
  induction b with
  | nil => simp [stuffBytes, unstuffBytes]
  | cons x xs ih => simp [stuffBytes, unstuffBytes, ih]

/-- Toy compressor: blocks `[7,7,7,7]` and `[9]` compress to one byte;
anything else is byte-stuffed behind marker `4`. -/
def toyCmp (b : List Nat) : List Nat :=
  if b = [7, 7, 7, 7] then [2] else if b = [9] then [3] else 4 :: stuffBytes b

/-- Toy decompressor matching `toyCmp`. -/
def toyDec : List Nat → List Nat
  | 2 :: _ => [7, 7, 7, 7]
  | 3 :: _ => [9]
  | 4 :: rest => unstuffBytes rest
  | _ => []

theorem toy_selfTerm (b t : List Nat) : toyDec (toyCmp b ++ t) = b := by
  by_cases h7 : b = [7, 7, 7, 7]
  · simp [toyCmp, toyDec, h7]
  · by_cases h9 : b = [9]
    · simp [toyCmp, toyDec, h7, h9]
    · simp [toyCmp, toyDec, h7, h9, unstuff_stuff]

/-- The concrete engine assembled from the toy codec. -/
def toyEngine : Engine := ⟨toyCmp, toyDec, toy_selfTerm⟩

/-! ## Descriptors and outcomes -/

/-- Which job record a descriptor is configured on: `ctx->job`
(the single slot) or `ctx->job_c[i]` (the pool). -/
inductive JobId where
  | single : JobId
  | pool : Nat → JobId
deriving DecidableEq

/-- One engine descriptor as configured and submitted by the drivers:
input window `[inOff, inOff+inLen)` and output window
`[outOff, outOff+outLen)` (offsets into the respective caller buffers). -/
structure Descriptor where
  job : JobId
  inOff : Nat
  inLen : Nat
  outOff : Nat
  outLen : Nat
deriving DecidableEq

/-- Result of a `compress` call: the final output-buffer contents, the value
stored through `compressed_size` (`none` when the call returned early
without updating it), and the descriptors submitted to the engine, in
submission order. -/
structure CompressOutcome where
  mem : Mem
  size : Option Nat
  subs : List Descriptor

/-- Result of a `decompress` call, mirroring `CompressOutcome`. -/
structure DecompressOutcome where
  mem : Mem
  size : Option Nat
  subs : List Descriptor

/-! ## The compress driver (qpl_helper.cpp lines 125-274) -/

/-- `out_block_size = (*compressed_size - header_offset) / (blocks + 1)`:
`size_t` subtraction wraps modulo `2^64`. -/
def outBlockSize (cap off blocks : Nat) : Nat :=
  ((cap + 2 ^ 64 - off) % 2 ^ 64) / (blocks + 1)

/-- `available_in` of submission `k`: `block_size` while the input cursor is
before `last_to_copy_src_addr`, i.e. for `k < blocks`, and
`last_block_size` for the final submission `k = blocks`. -/
def inLenC (B blocks last k : Nat) : Nat := if k < blocks then B else last

/-- Input window of submission `k`. -/
def blockAt (B blocks last : Nat) (input : List Nat) (k : Nat) : List Nat :=
  (input.drop (k * B)).take (inLenC B blocks last k)

/-- The engine outputs for the `blocks + 1` submissions of the multi-block
path, in block order. -/
def cmpsOf (E : Engine) (B blocks last : Nat) (input : List Nat) : List (List Nat) :=
  (List.range (blocks + 1)).map (fun k => E.cmp (blockAt B blocks last input k))

/-- The descriptors of the multi-block path: submission `k` runs on pool job
`k % jobs` (job `k` in the fill phase, the round-robin slot afterwards),
reads block `k` and writes scratch window `k`. -/
def cmpDescs (jobs B blocks last off obs : Nat) : List Descriptor :=
  (List.range (blocks + 1)).map
    (fun k => ⟨JobId.pool (k % jobs), k * B, inLenC B blocks last k, off + k * obs, obs⟩)

/-- Engine writes into consecutive scratch windows of size `obs` starting at
`o`; a job whose output does not fit `available_out = obs` writes nothing
(it reports a hard error instead). -/
def stage (obs : Nat) : Nat → Mem → List (List Nat) → Mem
  | _, m, [] => m
  | o, m, c :: cs => stage obs (o + obs) (mstore m o (if c.length ≤ obs then c else [])) cs

/-- The three leading header words `block_size`, `last_block_size`,
`blocks`, written before the path split (lines 136-138). -/
def hdrMem (B blocks last : Nat) (out0 : Mem) : Mem :=
  mstore (mstore (mstore out0 0 (u32Bytes B)) 4 (u32Bytes last)) 8 (u32Bytes blocks)

/-- Functional semantics of `compress` (lines 125-274).  `cap` is the value
at `*compressed_size` on entry (the output capacity); header fields are
`uint32_t`, hence the `% 2^32`.  On the multi-block path the first block
whose compressed size exceeds the scratch window aborts the call at its
check; submissions stop at most `jobs` past it (its error is observed after
the in-flight window has been refilled). -/
def compress (E : Engine) (jobs B : Nat) (input : List Nat) (out0 : Mem) (cap : Nat) :
    CompressOutcome :=
  let S := input.length
  let blocks := S / B % 2 ^ 32
  let last := S % B % 2 ^ 32
  let off := (blocks + 4) * 4 % 2 ^ 32
  let m0 := hdrMem B blocks last out0
  if S ≤ B then
    if (E.cmp input).length ≤ cap then
      ⟨mstore m0 off (E.cmp input), some ((E.cmp input).length % 2 ^ 32 + off),
        [⟨JobId.single, 0, S, off, cap⟩]⟩
    else ⟨m0, none, [⟨JobId.single, 0, S, off, cap⟩]⟩
  else
    let obs := outBlockSize cap off blocks
    let comps := cmpsOf E B blocks last input
    match comps.findIdx? (fun c => decide (obs < c.length)) with
    | some k0 =>
        let nSub := min (blocks + 1) (k0 + jobs)
        ⟨mstore (mstore (stage obs off m0 (comps.take nSub)) 12
            (((comps.take k0).map (fun c => u32Bytes c.length)).flatten)) off
            ((comps.take k0).flatten),
          none, (cmpDescs jobs B blocks last off obs).take nSub⟩
    | none =>
        ⟨mstore (mstore (stage obs off m0 comps) 12
            ((comps.map (fun c => u32Bytes c.length)).flatten)) off comps.flatten,
          some ((comps.map List.length).sum + off), cmpDescs jobs B blocks last off obs⟩

/-! ## The decompress driver (qpl_helper.cpp lines 276-400) -/

/-- Header word 0 as the reader sees it: `block_size`. -/
def hdrBlockSize (comp : Mem) : Nat := readU32 comp 0

/-- Header word 1: `last_block_size`. -/
def hdrLastSize (comp : Mem) : Nat := readU32 comp 4

/-- Header word 2: `blocks`. -/
def hdrBlocks (comp : Mem) : Nat := readU32 comp 8

/-- `header_offset = (blocks + 4) * sizeof(uint32_t)` in `uint32_t`
arithmetic. -/
def hdrOff (comp : Mem) : Nat := (hdrBlocks comp + 4) * 4 % 2 ^ 32

/-- Per-block compressed size table entry `k`, read from word `k + 3`
(byte offset `4*(k+3) = 12 + 4*k`). -/
def tabEntry (comp : Mem) (k : Nat) : Nat := readU32 comp (4 * (k + 3))

/-- `available_out` of decompression job `k`:
`(i == blocks) ? last_block_size : block_size`. -/
def availOut (comp : Mem) (k : Nat) : Nat :=
  if k = hdrBlocks comp then hdrLastSize comp else hdrBlockSize comp

/-- Input offset of decompression job `k`: the payload start plus the table
entries of the previous blocks (`in_data` advances by each
`block_compressed_size`). -/
def cumIn (comp : Mem) (k : Nat) : Nat :=
  hdrOff comp + ((List.range k).map (tabEntry comp)).sum

/-- Output offset of decompression job `k` (`out_byte_ptr` advances by each
`available_out`). -/
def cumOut (comp : Mem) (k : Nat) : Nat := ((List.range k).map (availOut comp)).sum

/-- Compressed bytes handed to decompression job `k`. -/
def chunkAt (comp : Mem) (k : Nat) : List Nat := fetch comp (cumIn comp k) (tabEntry comp k)

/-- The descriptors of the multi-block decompression path. -/
def decDescs (jobs : Nat) (comp : Mem) : List Descriptor :=
  (List.range (hdrBlocks comp + 1)).map
    (fun k => ⟨JobId.pool (k % jobs), cumIn comp k, tabEntry comp k, cumOut comp k,
      availOut comp k⟩)

/-- Decompression jobs `0 .. n-1` write their outputs at their output
offsets; a job whose output exceeds `available_out` writes nothing. -/
def decWrites (E : Engine) (comp : Mem) (out0 : Mem) (n : Nat) : Mem :=
  (List.range n).foldl
    (fun acc k =>
      if (E.dec (chunkAt comp k)).length ≤ availOut comp k then
        mstore acc (cumOut comp k) (E.dec (chunkAt comp k))
      else acc) out0

/-- Abort test of multi-block decompression iteration `i`: the header check
`block_compressed_size > available_out` for block `i` at submission time,
or (once the in-flight window is full, `i ≥ jobs`) a hard engine error of
the job polled at the round-robin cursor, which then runs block
`i - jobs`. -/
def decAbortAt (E : Engine) (jobs : Nat) (comp : Mem) (i : Nat) : Bool :=
  decide (availOut comp i < tabEntry comp i) ||
    (decide (jobs ≤ i) &&
      decide (availOut comp (i - jobs) < (E.dec (chunkAt comp (i - jobs))).length))

/-- Functional semantics of `decompress` (lines 276-400).  `compSize` is the
`compressed_size` argument, `cap` the value at `*decompressed_size` on
entry.  The capacity check multiplies in `uint32_t`, hence the `% 2^32`;
the single-block path hands the engine `compressed_size` bytes starting at
the payload (`available_in` is a `uint32_t`).  Engine errors of the last
`jobs` submissions are never observed (the final wait only requires
terminal statuses), so they do not prevent the size update. -/
def decompress (E : Engine) (jobs : Nat) (comp : Mem) (compSize : Nat) (out0 : Mem)
    (cap : Nat) : DecompressOutcome :=
  if cap < (hdrBlocks comp * hdrBlockSize comp + hdrLastSize comp) % 2 ^ 32 then
    ⟨out0, none, []⟩
  else if hdrBlocks comp = 0 then
    let d := E.dec (fetch comp (hdrOff comp) (compSize % 2 ^ 32))
    if d.length ≤ cap then
      ⟨mstore out0 0 d, some (d.length % 2 ^ 32),
        [⟨JobId.single, hdrOff comp, compSize % 2 ^ 32, 0, cap⟩]⟩
    else ⟨out0, none, [⟨JobId.single, hdrOff comp, compSize % 2 ^ 32, 0, cap⟩]⟩
  else
    match (List.range (hdrBlocks comp + 1)).find? (decAbortAt E jobs comp) with
    | some i0 =>
        ⟨decWrites E comp out0 (i0 - jobs), none, (decDescs jobs comp).take i0⟩
    | none =>
        ⟨decWrites E comp out0 (hdrBlocks comp + 1),
          some ((hdrBlocks comp * hdrBlockSize comp + hdrLastSize comp) % 2 ^ 32),
          decDescs jobs comp⟩

/-! ## Context release (free_qpl_context, lines 87-101) -/

/-- One observable action of `free_qpl_context`: an engine finalization
(`qpl_fini_job`) or a memory release (`free`) of the single record, a pool
record, or the context envelope allocated by `allocate_qpl_context`. -/
inductive FreeAction where
  | finiSingle : FreeAction
  | finiPool : Nat → FreeAction
  | releaseSingle : FreeAction
  | releasePool : Nat → FreeAction
  | releaseEnvelope : FreeAction
deriving DecidableEq

/-- The action trace of `free_qpl_context(ctx, initialized)`:
`ctxPresent = false` models `ctx == NULL` (immediate return); otherwise the
records are finalized when `inited`, then every pool record and the single
record are released.  The trace is exactly what the source emits, in source
order. -/
def free_qpl_context (ctxPresent : Bool) (jobsNumber : Nat) (inited : Bool) :
    List FreeAction :=
  if !ctxPresent then []
  else
    (if inited then
        FreeAction.finiSingle :: (List.range jobsNumber).map FreeAction.finiPool
      else []) ++
      (List.range jobsNumber).map FreeAction.releasePool ++ [FreeAction.releaseSingle]

/-! ## Status loops (wait_for_all_jobs lines 107-123, busy-retry and
poll loops in compress/decompress) -/

/-- An engine status as classified by the drivers. -/
inductive QStatus where
  | ok : QStatus
  | beingProcessed : QStatus
  | queuesBusy : QStatus
  | jobNotSubmitted : QStatus
  | err : Nat → QStatus
deriving DecidableEq

/-- A slot is non-terminal exactly when its status is `BeingProcessed` or
`QueuesBusy` (line 114). -/
def isTransient (s : QStatus) : Bool :=
  s = QStatus.beingProcessed ∨ s = QStatus.queuesBusy

/-- The statuses of the `n` slots observed during polling round `r`.
`poll r i` is what `qpl_check_job(ctx->job_c[i])` returns in round `r`. -/
def pollRound (n : Nat) (poll : Nat → Nat → QStatus) (r : Nat) : List QStatus :=
  (List.range n).map (poll r)

/-- `wait_for_all_jobs` over a poll schedule: each round polls every slot,
then checks the wall clock (`elapsedMin r` is the whole-minute count after
round `r`), returning Timeout (`false`) when at least one minute elapsed,
and success (`true`) when every slot is terminal; otherwise the next round
runs.  The returned list is the status vector of the final round.  `fuel`
bounds the recursion (`none` = still looping). -/
def wait_for_all_jobs (n : Nat) (poll : Nat → Nat → QStatus) (elapsedMin : Nat → Nat) :
    Nat → Nat → Option (Bool × List QStatus)
  | 0, _ => none
  | fuel + 1, r =>
    let sts := pollRound n poll r
    if 1 ≤ elapsedMin r then some (false, sts)
    else if sts.all (fun s => !isTransient s) then some (true, sts)
    else wait_for_all_jobs n poll elapsedMin fuel (r + 1)

/-- The submission retry loop `do { status = qpl_submit_job(...); } while
(status == QPL_STS_QUEUES_ARE_BUSY_ERR);` over a schedule of statuses:
`submit a` is what attempt `a` returns.  Returns the first non-busy status
(`none` = fuel exhausted while the engine stays busy). -/
def retrySubmit (submit : Nat → QStatus) : Nat → Nat → Option QStatus
  | 0, _ => none
  | fuel + 1, a =>
    if submit a = QStatus.queuesBusy then retrySubmit submit fuel (a + 1)
    else some (submit a)

/-- The per-slot poll loop `while (1) { status = qpl_check_job(...); ... }`
of the drain loops: `check t` is what poll attempt `t` on the one slot at
the round-robin cursor returns.  `BeingProcessed` and `QueuesBusy` continue
the loop; anything else leaves it. -/
def pollSlot (check : Nat → QStatus) : Nat → Nat → Option QStatus
  | 0, _ => none
  | fuel + 1, t =>
    if check t = QStatus.beingProcessed ∨ check t = QStatus.queuesBusy then
      pollSlot check fuel (t + 1)
    else some (check t)

/-- What the drain loop does with the status that left the poll loop:
`QPL_STS_OK` proceeds with the copy and resubmission, anything else aborts
the call (`return`). -/
def pollVerdict (check : Nat → QStatus) (fuel t : Nat) : Option Bool :=
  (pollSlot check fuel t).map (fun s => decide (s = QStatus.ok))

/-! ## Memory lemmas -/

theorem mstore_lt {m : Mem} {off : Nat} {bs : List Nat} {i : Nat} (h : i < off) :
    mstore m off bs i = m i := by
  have hn : ¬(off ≤ i ∧ i < off + bs.length) := by omega
  simp only [mstore, hn, if_false]

theorem mstore_ge {m : Mem} {off : Nat} {bs : List Nat} {i : Nat}
    (h : off + bs.length ≤ i) : mstore m off bs i = m i := by
  have hn : ¬(off ≤ i ∧ i < off + bs.length) := by omega
  simp only [mstore, hn, if_false]

theorem fetch_length (m : Mem) (off n : Nat) : (fetch m off n).length = n := by
  simp [fetch]

theorem fetch_congr {m1 m2 : Mem} (off n : Nat)
    (h : ∀ i, i < n → m1 (off + i) = m2 (off + i)) : fetch m1 off n = fetch m2 off n := by
  simp only [fetch]
  exact List.map_congr_left (by intro i hi; exact h i (List.mem_range.mp hi))

theorem fetch_mstore_before {m : Mem} {off : Nat} {bs : List Nat} {o n : Nat}
    (h : o + n ≤ off) : fetch (mstore m off bs) o n = fetch m o n := by
  apply fetch_congr
  intro i hi
  exact mstore_lt (by omega)

theorem fetch_mstore_after {m : Mem} {off : Nat} {bs : List Nat} {o n : Nat}
    (h : off + bs.length ≤ o) : fetch (mstore m off bs) o n = fetch m o n := by
  apply fetch_congr
  intro i hi
  exact mstore_ge (by omega)

theorem getElem_fetch {m : Mem} {off n i : Nat} (h : i < (fetch m off n).length) :
    (fetch m off n)[i] = m (off + i) := by
  simp only [fetch, List.getElem_map, List.getElem_range]

theorem fetch_mstore_within {m : Mem} {off : Nat} {bs : List Nat} {a n : Nat}
    (h : a + n ≤ bs.length) : fetch (mstore m off bs) (off + a) n = (bs.drop a).take n := by
  apply List.ext_getElem
  · simp only [fetch_length, List.length_take, List.length_drop]
    omega
  · intro i hi1 hi2
    rw [getElem_fetch]
    have hia : a + i < bs.length := by
      simp only [fetch_length] at hi1
      omega
    have hm : mstore m off bs (off + a + i) = bs.getD (a + i) 0 := by
      have hc : off ≤ off + a + i ∧ off + a + i < off + bs.length := by omega
      simp only [mstore]
      rw [if_pos hc]
      congr 1
      omega
    rw [hm, List.getElem_take, List.getElem_drop, List.getD_eq_getElem _ _ hia]

theorem fetch_mstore (m : Mem) (off : Nat) (bs : List Nat) :
    fetch (mstore m off bs) off bs.length = bs := by
  have h := @fetch_mstore_within m off bs 0 bs.length (by omega)
  simpa using h

theorem fetch_split (m : Mem) (off a b : Nat) :
    fetch m off (a + b) = fetch m off a ++ fetch m (off + a) b := by
  apply List.ext_getElem
  · simp [fetch_length]
  · intro i hi1 hi2
    rw [getElem_fetch]
    simp only [fetch_length] at hi1
    rcases Nat.lt_or_ge i a with h | h
    · rw [List.getElem_append_left (by simpa [fetch_length] using h)]
      rw [getElem_fetch]
    · rw [List.getElem_append_right (by simpa [fetch_length] using h)]
      rw [getElem_fetch]
      simp only [fetch_length]
      congr 1
      omega

theorem stage_before {obs : Nat} (cs : List (List Nat)) :
    ∀ (o : Nat) (m : Mem) (o2 n : Nat), o2 + n ≤ o →
      fetch (stage obs o m cs) o2 n = fetch m o2 n := by
  induction cs with
  | nil => intro o m o2 n _; rfl
  | cons c cs ih =>
    intro o m o2 n h
    simp only [stage]
    rw [ih (o + obs) _ o2 n (by omega), fetch_mstore_before h]

theorem leNat_u32Bytes (n : Nat) : leNat (u32Bytes n) = n % 2 ^ 32 := by
  simp only [leNat, u32Bytes, List.foldr]
  omega

theorem readU32_eq_leNat_fetch (m : Mem) (off : Nat) :
    readU32 m off = leNat (fetch m off 4) := rfl

theorem readU32_mstore_u32Bytes (m : Mem) (off n : Nat) :
    readU32 (mstore m off (u32Bytes n)) off = n % 2 ^ 32 := by
  have h4 : (u32Bytes n).length = 4 := by simp [u32Bytes]
  rw [readU32_eq_leNat_fetch, ← h4, fetch_mstore, leNat_u32Bytes]

theorem readU32_mstore_before {m : Mem} {off : Nat} {bs : List Nat} {o : Nat}
    (h : o + 4 ≤ off) : readU32 (mstore m off bs) o = readU32 m o := by
  rw [readU32_eq_leNat_fetch, readU32_eq_leNat_fetch, fetch_mstore_before h]

theorem readU32_mstore_after {m : Mem} {off : Nat} {bs : List Nat} {o : Nat}
    (h : off + bs.length ≤ o) : readU32 (mstore m off bs) o = readU32 m o := by
  rw [readU32_eq_leNat_fetch, readU32_eq_leNat_fetch, fetch_mstore_after h]

/-! ## Table layout lemmas -/

theorem flatten_u32_length (ls : List Nat) :
    ((ls.map u32Bytes).flatten).length = 4 * ls.length := by
  induction ls with
  | nil => simp
  | cons a ls ih =>
    simp only [List.map_cons, List.flatten_cons, List.length_append, ih, List.length_cons]
    simp [u32Bytes]
    ring

theorem flatten_u32_drop_take :
    ∀ (ls : List Nat) (k : Nat), k < ls.length →
      (((ls.map u32Bytes).flatten.drop (4 * k)).take 4) = u32Bytes (ls.getD k 0) := by
  intro ls
  induction ls with
  | nil => intro k h; simp at h
  | cons a ls ih =>
    intro k h
    cases k with
    | zero =>
      simp only [List.map_cons, List.flatten_cons, Nat.mul_zero, List.drop_zero,
        List.getD_cons_zero]
      rw [List.take_append_of_le_length (by simp [u32Bytes])]
      simp [u32Bytes]
    | succ k =>
      simp only [List.map_cons, List.flatten_cons, List.getD_cons_succ]
      have h1 : 4 * (k + 1) = (u32Bytes a).length + 4 * k := by
        simp [u32Bytes]
        omega
      rw [h1, List.drop_append]
      exact ih k (by simpa using h)

/-! ## Branch reductions of `compress` -/

theorem compress_single_eq (E : Engine) (jobs B : Nat) (input : List Nat) (out0 : Mem)
    (cap : Nat) (hSB : input.length ≤ B)
    (hb32 : input.length / B < 2 ^ 32) (hl32 : input.length % B < 2 ^ 32)
    (ho32 : (input.length / B + 4) * 4 < 2 ^ 32) :
    compress E jobs B input out0 cap =
      if (E.cmp input).length ≤ cap then
        ⟨mstore (hdrMem B (input.length / B) (input.length % B) out0)
            ((input.length / B + 4) * 4) (E.cmp input),
          some ((E.cmp input).length % 2 ^ 32 + (input.length / B + 4) * 4),
          [⟨JobId.single, 0, input.length, (input.length / B + 4) * 4, cap⟩]⟩
      else ⟨hdrMem B (input.length / B) (input.length % B) out0, none,
          [⟨JobId.single, 0, input.length, (input.length / B + 4) * 4, cap⟩]⟩ := by
  simp only [compress, Nat.mod_eq_of_lt hb32, Nat.mod_eq_of_lt hl32, Nat.mod_eq_of_lt ho32,
    if_pos hSB]

theorem compress_multi_ok_eq (E : Engine) (jobs B : Nat) (input : List Nat) (out0 : Mem)
    (cap : Nat) (hSB : B < input.length)
    (hb32 : input.length / B < 2 ^ 32) (hl32 : input.length % B < 2 ^ 32)
    (ho32 : (input.length / B + 4) * 4 < 2 ^ 32)
    (hfind : (cmpsOf E B (input.length / B) (input.length % B) input).findIdx?
        (fun c => decide
          (outBlockSize cap ((input.length / B + 4) * 4) (input.length / B) < c.length)) =
        none) :
    compress E jobs B input out0 cap =
      ⟨mstore (mstore (stage (outBlockSize cap ((input.length / B + 4) * 4)
            (input.length / B)) ((input.length / B + 4) * 4)
            (hdrMem B (input.length / B) (input.length % B) out0)
            (cmpsOf E B (input.length / B) (input.length % B) input)) 12
          (((cmpsOf E B (input.length / B) (input.length % B) input).map
            (fun c => u32Bytes c.length)).flatten)) ((input.length / B + 4) * 4)
          ((cmpsOf E B (input.length / B) (input.length % B) input).flatten),
        some (((cmpsOf E B (input.length / B) (input.length % B) input).map
            List.length).sum + (input.length / B + 4) * 4),
        cmpDescs jobs B (input.length / B) (input.length % B) ((input.length / B + 4) * 4)
          (outBlockSize cap ((input.length / B + 4) * 4) (input.length / B))⟩ := by
  simp only [compress, Nat.mod_eq_of_lt hb32, Nat.mod_eq_of_lt hl32, Nat.mod_eq_of_lt ho32,
    if_neg (by omega : ¬ input.length ≤ B), hfind]

theorem compress_multi_fail_eq (E : Engine) (jobs B : Nat) (input : List Nat) (out0 : Mem)
    (cap : Nat) (k0 : Nat) (hSB : B < input.length)
    (hb32 : input.length / B < 2 ^ 32) (hl32 : input.length % B < 2 ^ 32)
    (ho32 : (input.length / B + 4) * 4 < 2 ^ 32)
    (hfind : (cmpsOf E B (input.length / B) (input.length % B) input).findIdx?
        (fun c => decide
          (outBlockSize cap ((input.length / B + 4) * 4) (input.length / B) < c.length)) =
        some k0) :
    compress E jobs B input out0 cap =
      ⟨mstore (mstore (stage (outBlockSize cap ((input.length / B + 4) * 4)
            (input.length / B)) ((input.length / B + 4) * 4)
            (hdrMem B (input.length / B) (input.length % B) out0)
            ((cmpsOf E B (input.length / B) (input.length % B) input).take
              (min (input.length / B + 1) (k0 + jobs)))) 12
          ((((cmpsOf E B (input.length / B) (input.length % B) input).take k0).map
            (fun c => u32Bytes c.length)).flatten)) ((input.length / B + 4) * 4)
          (((cmpsOf E B (input.length / B) (input.length % B) input).take k0).flatten),
        none,
        (cmpDescs jobs B (input.length / B) (input.length % B) ((input.length / B + 4) * 4)
          (outBlockSize cap ((input.length / B + 4) * 4) (input.length / B))).take
          (min (input.length / B + 1) (k0 + jobs))⟩ := by
  simp only [compress, Nat.mod_eq_of_lt hb32, Nat.mod_eq_of_lt hl32, Nat.mod_eq_of_lt ho32,
    if_neg (by omega : ¬ input.length ≤ B), hfind]

/-! ## Status-loop lemmas -/

theorem retrySubmit_some (submit : Nat → QStatus) :
    ∀ (fuel a : Nat) (s : QStatus), retrySubmit submit fuel a = some s →
      s ≠ QStatus.queuesBusy ∧
        ∃ i, a ≤ i ∧ (∀ j, a ≤ j → j < i → submit j = QStatus.queuesBusy) ∧ s = submit i := by
  intro fuel
  induction fuel with
  | zero => intro a s h; simp [retrySubmit] at h
  | succ fuel ih =>
    intro a s h
    simp only [retrySubmit] at h
    by_cases hb : submit a = QStatus.queuesBusy
    · rw [if_pos hb] at h
      obtain ⟨hne, i, hai, hall, hs⟩ := ih (a + 1) s h
      refine ⟨hne, i, by omega, ?_, hs⟩
      intro j haj hji
      rcases Nat.eq_or_lt_of_le haj with hj | hj
      · rwa [← hj]
      · exact hall j hj hji
    · rw [if_neg hb] at h
      obtain rfl : submit a = s := by injection h
      exact ⟨hb, a, Nat.le_refl a, by omega, rfl⟩

theorem pollSlot_some (check : Nat → QStatus) :
    ∀ (fuel t : Nat) (s : QStatus), pollSlot check fuel t = some s →
      (s ≠ QStatus.beingProcessed ∧ s ≠ QStatus.queuesBusy) ∧
        ∃ i, t ≤ i ∧
          (∀ j, t ≤ j → j < i →
            check j = QStatus.beingProcessed ∨ check j = QStatus.queuesBusy) ∧
          s = check i := by
  intro fuel
  induction fuel with
  | zero => intro t s h; simp [pollSlot] at h
  | succ fuel ih =>
    intro t s h
    simp only [pollSlot] at h
    by_cases hb : check t = QStatus.beingProcessed ∨ check t = QStatus.queuesBusy
    · rw [if_pos hb] at h
      obtain ⟨hne, i, hti, hall, hs⟩ := ih (t + 1) s h
      refine ⟨hne, i, by omega, ?_, hs⟩
      intro j htj hji
      rcases Nat.eq_or_lt_of_le htj with hj | hj
      · rwa [← hj]
      · exact hall j hj hji
    · rw [if_neg hb] at h
      obtain rfl : check t = s := by injection h
      push_neg at hb
      exact ⟨⟨hb.1, hb.2⟩, t, Nat.le_refl t, by omega, rfl⟩

theorem wait_for_all_jobs_some (n : Nat) (poll : Nat → Nat → QStatus) (el : Nat → Nat) :
    ∀ (fuel r0 : Nat) (b : Bool) (sts : List QStatus),
      wait_for_all_jobs n poll el fuel r0 = some (b, sts) →
      ∃ r, r0 ≤ r ∧ sts = pollRound n poll r ∧
        (b = false ↔ 1 ≤ el r) ∧
        (b = true → (pollRound n poll r).all (fun s => !isTransient s) = true) ∧
        (∀ r2, r0 ≤ r2 → r2 < r →
          el r2 = 0 ∧ (pollRound n poll r2).all (fun s => !isTransient s) = false) := by
  intro fuel
  induction fuel with
  | zero => intro r0 b sts h; simp [wait_for_all_jobs] at h
  | succ fuel ih =>
    intro r0 b sts h
    simp only [wait_for_all_jobs] at h
    by_cases hel : 1 ≤ el r0
    · rw [if_pos hel] at h
      simp only [Option.some.injEq, Prod.mk.injEq] at h
      obtain ⟨rfl, rfl⟩ := h
      exact ⟨r0, Nat.le_refl r0, rfl, by simp [hel], by simp, by omega⟩
    · rw [if_neg hel] at h
      by_cases hall : (pollRound n poll r0).all (fun s => !isTransient s) = true
      · rw [if_pos hall] at h
        simp only [Option.some.injEq, Prod.mk.injEq] at h
        obtain ⟨rfl, rfl⟩ := h
        refine ⟨r0, Nat.le_refl r0, rfl, by simp [hel], fun _ => hall, by omega⟩
      · rw [if_neg hall] at h
        obtain ⟨r, hr, hsts, hb, ht, hprev⟩ := ih (r0 + 1) b sts h
        refine ⟨r, by omega, hsts, hb, ht, ?_⟩
        intro r2 h02 h2r
        rcases Nat.eq_or_lt_of_le h02 with hr2 | hr2
        · subst hr2
          exact ⟨by omega, by simpa using hall⟩
        · exact hprev r2 hr2 h2r

/-! ## Claim C7 -/

/-- C7 counterexample: the barrier checks the wall clock after each full
polling round and before the all-done test, so a round that both finds every
slot terminal and crosses the deadline still returns Timeout.  With one slot
whose very first poll is `Ok` (terminal) and a first round that already took
a minute, `wait_for_all_jobs` returns Timeout even though no slot is
non-terminal at the deadline — refuting the claimed "Timeout iff some slot
is still non-terminal at the deadline". -/
theorem c7_counterexample :
    wait_for_all_jobs 1 (fun _ _ => QStatus.ok) (fun _ => 1) 1 0 =
        some (false, [QStatus.ok]) ∧
      isTransient QStatus.ok = false := by
  constructor
  · rfl
  · rfl

/-- C7 (amended): whenever the barrier returns, its result comes from a
final polling round `r`: the status vector is exactly that round's per-slot
statuses, the result is Timeout (`false`) iff at least one whole minute had
elapsed when round `r` ended (regardless of whether the slots were
terminal), success (`true`) implies every slot was terminal in round `r`,
and every earlier round ended within the deadline with some slot still
non-terminal. -/
theorem c7_wait_barrier (n : Nat) (poll : Nat → Nat → QStatus) (el : Nat → Nat)
    (fuel r0 : Nat) (b : Bool) (sts : List QStatus)
    (h : wait_for_all_jobs n poll el fuel r0 = some (b, sts)) :
    ∃ r, r0 ≤ r ∧ sts = pollRound n poll r ∧
      (b = false ↔ 1 ≤ el r) ∧
      (b = true → (pollRound n poll r).all (fun s => !isTransient s) = true) ∧
      (∀ r2, r0 ≤ r2 → r2 < r →
        el r2 = 0 ∧ (pollRound n poll r2).all (fun s => !isTransient s) = false) :=
  wait_for_all_jobs_some n poll el fuel r0 b sts h

/-- Witness for C7's theorem: two slots that are busy in round 0 and done in
round 1, with the clock still under a minute. -/
theorem c7_wait_barrier_witness :
    wait_for_all_jobs 2 (fun r _ => if r = 0 then QStatus.queuesBusy else QStatus.ok)
        (fun _ => 0) 3 0 =
        some (true, [QStatus.ok, QStatus.ok]) ∧
      ∃ r, 0 ≤ r ∧
        [QStatus.ok, QStatus.ok] =
          pollRound 2 (fun r _ => if r = 0 then QStatus.queuesBusy else QStatus.ok) r ∧
        ((true = false) ↔ 1 ≤ (fun _ => (0 : Nat)) r) ∧
        (true = true →
          (pollRound 2 (fun r _ => if r = 0 then QStatus.queuesBusy else QStatus.ok) r).all
            (fun s => !isTransient s) = true) ∧
        (∀ r2, 0 ≤ r2 → r2 < r →
          (fun _ => (0 : Nat)) r2 = 0 ∧
            (pollRound 2 (fun r _ => if r = 0 then QStatus.queuesBusy else QStatus.ok) r2).all
              (fun s => !isTransient s) = false) :=
  ⟨by decide,
    c7_wait_barrier 2 (fun r _ => if r = 0 then QStatus.queuesBusy else QStatus.ok)
      (fun _ => 0) 3 0 true [QStatus.ok, QStatus.ok] (by decide)⟩

/-! ## Claim C8 -/

/-- C8: `free_qpl_context` finalizes every record exactly when
`initialized`, releases every pool record and the single record — but it
never releases the context envelope allocated by `allocate_qpl_context`
(there is no `free(ctx)`), contradicting the documented contract that the
context's memory is released.  Evaluated at a live context with 4 pool
slots; the null-context call is a no-op. -/
theorem c8_free_context_trace :
    free_qpl_context true 4 true =
        [FreeAction.finiSingle, FreeAction.finiPool 0, FreeAction.finiPool 1,
          FreeAction.finiPool 2, FreeAction.finiPool 3, FreeAction.releasePool 0,
          FreeAction.releasePool 1, FreeAction.releasePool 2, FreeAction.releasePool 3,
          FreeAction.releaseSingle] ∧
      FreeAction.releaseEnvelope ∉ free_qpl_context true 4 true ∧
      FreeAction.releaseEnvelope ∉ free_qpl_context true 4 false ∧
      FreeAction.finiSingle ∉ free_qpl_context true 4 false ∧
      (∀ i, FreeAction.finiPool i ∉ free_qpl_context true 4 false) ∧
      free_qpl_context false 4 true = [] := by
  refine ⟨by decide, by decide, by decide, by decide, ?_, by decide⟩
  intro i
  simp [free_qpl_context]

/-! ## Claim C9 -/

/-- C9: in the drivers' submission and polling loops a `QueuesBusy` status
never escapes: the submit retry loop returns only once the engine answers
something other than `QueuesBusy` (retrying the same submission until
then), the per-slot poll loop keeps polling the same slot through
`BeingProcessed` and `QueuesBusy` and leaves only on a different status,
and the loop aborts the call only when that leaving status is a hard error
(not `Ok`, and never one of the transients). -/
theorem c9_busy_never_escapes (submit check : Nat → QStatus) (fuel a t : Nat)
    (s s2 : QStatus) (hs : retrySubmit submit fuel a = some s)
    (hp : pollSlot check fuel t = some s2) :
    s ≠ QStatus.queuesBusy ∧
      (s2 ≠ QStatus.beingProcessed ∧ s2 ≠ QStatus.queuesBusy) ∧
      (∃ i, a ≤ i ∧ (∀ j, a ≤ j → j < i → submit j = QStatus.queuesBusy) ∧ s = submit i) ∧
      (∃ i, t ≤ i ∧
        (∀ j, t ≤ j → j < i →
          check j = QStatus.beingProcessed ∨ check j = QStatus.queuesBusy) ∧
        s2 = check i) ∧
      (pollVerdict check fuel t = some false → s2 ≠ QStatus.ok) := by
  obtain ⟨hne, hwit⟩ := retrySubmit_some submit fuel a s hs
  obtain ⟨⟨hne1, hne2⟩, hwit2⟩ := pollSlot_some check fuel t s2 hp
  refine ⟨hne, ⟨hne1, hne2⟩, hwit, hwit2, ?_⟩
  intro hv
  simp only [pollVerdict, hp, Option.map_some] at hv
  intro hok
  rw [hok] at hv
  simp at hv

/-- Witness for C9's theorem: a submission that is busy twice then accepted,
and a slot that is in flight for three polls then completes. -/
theorem c9_busy_never_escapes_witness :
    retrySubmit (fun k => if k < 2 then QStatus.queuesBusy else QStatus.ok) 5 0 =
        some QStatus.ok ∧
      pollSlot (fun k => if k < 3 then QStatus.beingProcessed else QStatus.ok) 5 0 =
        some QStatus.ok ∧
      QStatus.ok ≠ QStatus.queuesBusy ∧
      (QStatus.ok ≠ QStatus.beingProcessed ∧ QStatus.ok ≠ QStatus.queuesBusy) :=
  ⟨by decide, by decide,
    (c9_busy_never_escapes (fun k => if k < 2 then QStatus.queuesBusy else QStatus.ok)
      (fun k => if k < 3 then QStatus.beingProcessed else QStatus.ok) 5 0 0
      QStatus.ok QStatus.ok (by decide) (by decide)).1,
    (c9_busy_never_escapes (fun k => if k < 2 then QStatus.queuesBusy else QStatus.ok)
      (fun k => if k < 3 then QStatus.beingProcessed else QStatus.ok) 5 0 0
      QStatus.ok QStatus.ok (by decide) (by decide)).2.1⟩

/-! ## Frame header readback -/

theorem hdrMem_readU32_0 (B blocks last : Nat) (out0 : Mem) :
    readU32 (hdrMem B blocks last out0) 0 = B % 2 ^ 32 := by
  unfold hdrMem
  rw [readU32_mstore_before (by omega), readU32_mstore_before (by simp [u32Bytes]),
    readU32_mstore_u32Bytes]

theorem hdrMem_readU32_4 (B blocks last : Nat) (out0 : Mem) :
    readU32 (hdrMem B blocks last out0) 4 = last % 2 ^ 32 := by
  unfold hdrMem
  rw [readU32_mstore_before (by omega), readU32_mstore_u32Bytes]

theorem hdrMem_readU32_8 (B blocks last : Nat) (out0 : Mem) :
    readU32 (hdrMem B blocks last out0) 8 = blocks % 2 ^ 32 := by
  unfold hdrMem
  rw [readU32_mstore_u32Bytes]

/-- Reading one of the three fixed header words through the stage, table and
payload writes of the multi-block path reaches the header written before
the path split. -/
theorem frame_readU32_low (m0 : Mem) (off obs : Nat) (cs : List (List Nat)) (T P : List Nat)
    (o2 : Nat) (h2 : o2 + 4 ≤ 12) (hoff : 12 ≤ off) :
    readU32 (mstore (mstore (stage obs off m0 cs) 12 T) off P) o2 = readU32 m0 o2 := by
  rw [readU32_mstore_before (by omega), readU32_mstore_before (by omega),
    readU32_eq_leNat_fetch, readU32_eq_leNat_fetch, stage_before cs off m0 o2 4 (by omega)]

/-- Reading table entry `k` (bytes `12 + 4k .. 15 + 4k`) of the finished
multi-block frame returns the compressed size of block `k`. -/
theorem frame_readU32_tab (m0 : Mem) (off obs : Nat) (cs cs2 : List (List Nat))
    (P : List Nat) (k : Nat) (hk : k < cs.length) (hoff : 12 + 4 * k + 4 ≤ off) :
    readU32 (mstore (mstore (stage obs off m0 cs2) 12
        ((cs.map (fun c => u32Bytes c.length)).flatten)) off P) (12 + 4 * k) =
      (cs.getD k []).length % 2 ^ 32 := by
  rw [readU32_mstore_before (by omega), readU32_eq_leNat_fetch]
  have hT : (cs.map (fun c => u32Bytes c.length)).flatten =
      ((cs.map List.length).map u32Bytes).flatten := by
    rw [List.map_map]
    rfl
  rw [hT]
  have hlen : 4 * k + 4 ≤ (((cs.map List.length).map u32Bytes).flatten).length := by
    rw [flatten_u32_length, List.length_map]
    omega
  rw [fetch_mstore_within hlen,
    flatten_u32_drop_take (cs.map List.length) k (by simpa using hk), leNat_u32Bytes]
  congr 1
  rw [List.getD_eq_getElem _ _ (by simpa using hk), List.getElem_map,
    List.getD_eq_getElem _ _ hk]

/-! ## Claim C3 -/

/-- C3 counterexample: with `S = block_size` (here both 4) the single-block
fast path is taken, but the header's `blocks` word is `input_size /
block_size = 1`, not the claimed `0` (and the payload therefore starts at
offset 20, not 16). -/
theorem c3_counterexample :
    (compress toyEngine 4 4 [7, 7, 7, 7] (fun _ => 0) 30).subs =
        [⟨JobId.single, 0, 4, 20, 30⟩] ∧
      readU32 (compress toyEngine 4 4 [7, 7, 7, 7] (fun _ => 0) 30).mem 8 = 1 := by
  constructor
  · decide
  · decide

/-- C3 (amended): for every input with `S ≤ block_size` the single-block
fast path is taken — the only descriptor runs on `single_slot` over the
whole input — but the header's `blocks` word is `S / block_size`: `0` when
`S < block_size` and `1` when `S = block_size > 0`.  The payload is written
at `header_offset = (S / block_size + 4) * 4` (16 only when `S <
block_size`), immediately after the header, and on success the reported
size is the compressed length plus that offset. -/
theorem c3_single_path (E : Engine) (jobs B : Nat) (input : List Nat) (out0 : Mem)
    (cap : Nat) (hSB : input.length ≤ B) (hS32 : input.length < 2 ^ 32) :
    (compress E jobs B input out0 cap).subs =
        [⟨JobId.single, 0, input.length, (input.length / B + 4) * 4, cap⟩] ∧
      readU32 (compress E jobs B input out0 cap).mem 8 = input.length / B ∧
      ((E.cmp input).length ≤ cap →
        (compress E jobs B input out0 cap).size =
            some ((E.cmp input).length % 2 ^ 32 + (input.length / B + 4) * 4) ∧
          fetch (compress E jobs B input out0 cap).mem ((input.length / B + 4) * 4)
            (E.cmp input).length = E.cmp input) := by
  have hdb : input.length / B ≤ 1 := by
    rcases Nat.eq_or_lt_of_le hSB with h | h
    · subst h
      rcases Nat.eq_zero_or_pos input.length with h0 | h0
      · simp [h0]
      · rw [Nat.div_self h0]
    · rw [Nat.div_eq_of_lt h]
      omega
  have hb32 : input.length / B < 2 ^ 32 := by omega
  have hl32 : input.length % B < 2 ^ 32 :=
    Nat.lt_of_le_of_lt (Nat.mod_le _ _) hS32
  have ho32 : (input.length / B + 4) * 4 < 2 ^ 32 := by omega
  rw [compress_single_eq E jobs B input out0 cap hSB hb32 hl32 ho32]
  have hge : 8 + 4 ≤ (input.length / B + 4) * 4 :=
    le_trans (by norm_num)
      (Nat.mul_le_mul_right 4 (Nat.le_add_left 4 (input.length / B)))
  by_cases hfit : (E.cmp input).length ≤ cap
  · rw [if_pos hfit]
    refine ⟨rfl, ?_, fun _ => ⟨rfl, ?_⟩⟩
    · rw [readU32_mstore_before hge, hdrMem_readU32_8,
        Nat.mod_eq_of_lt hb32]
    · rw [fetch_mstore]
  · rw [if_neg hfit]
    refine ⟨rfl, ?_, fun h => absurd h hfit⟩
    rw [hdrMem_readU32_8, Nat.mod_eq_of_lt hb32]

/-- Witness for C3's theorem: a 3-byte input with block size 4. -/
theorem c3_single_path_witness :
    (3 : Nat) ≤ 4 ∧
      (compress toyEngine 2 4 [9, 9, 9] (fun _ => 0) 40).subs =
        [⟨JobId.single, 0, 3, 16, 40⟩] := by
  refine ⟨by decide, ?_⟩
  have h := c3_single_path toyEngine 2 4 [9, 9, 9] (fun _ => 0) 40 (by decide) (by decide)
  exact h.1

/-! ## Window arithmetic helpers -/

theorem outBlockSize_eq (cap off blocks : Nat) (hoff : off ≤ cap) (hcap : cap < 2 ^ 64) :
    outBlockSize cap off blocks = (cap - off) / (blocks + 1) := by
  unfold outBlockSize
  congr 1
  have h1 : cap + 2 ^ 64 - off = (cap - off) + 2 ^ 64 := by omega
  rw [h1, Nat.add_mod_right, Nat.mod_eq_of_lt (by omega)]

theorem getD_map_range {α : Type} (f : Nat → α) (n k : Nat) (d : α) (h : k < n) :
    (((List.range n).map f).getD k d) = f k := by
  rw [List.getD_eq_getElem _ _ (by simpa using h), List.getElem_map, List.getElem_range]

/-! ## Claim C5 -/

/-- C5 counterexample: a multi-block call (8 bytes, block size 4) whose
output buffer (25 bytes) cannot hold the header (24 bytes) plus the scratch
windows (window size becomes `(25-24)/3 = 0`) does not fail before
submitting: two descriptors (the whole fill phase of a 2-job pool, with
zero-byte output windows) are submitted before the first check aborts the
call — there is no `OutputTooSmall` pre-submission failure. -/
theorem c5_counterexample :
    (compress toyEngine 2 4 [7, 7, 7, 7, 7, 7, 7, 7] (fun _ => 0) 25).size = none ∧
      (compress toyEngine 2 4 [7, 7, 7, 7, 7, 7, 7, 7] (fun _ => 0) 25).subs =
        [⟨JobId.pool 0, 0, 4, 24, 0⟩, ⟨JobId.pool 1, 4, 4, 24, 0⟩] := by
  constructor
  · decide
  · decide

/-- C5 (amended): `compress` performs no output-capacity check at all.  On
the multi-block path it always computes the scratch window size and starts
submitting; when some block's compressed output does not fit its window
(first such block `k0` — in particular whenever the buffer is too small for
the partition), the call returns without updating `*compressed_size`, but
only after having submitted `min(blocks+1, k0+jobs)` descriptors — at least
one, never zero. -/
theorem c5_no_pre_submission_check (E : Engine) (jobs B : Nat) (input : List Nat)
    (out0 : Mem) (cap k0 : Nat) (hjobs : 1 ≤ jobs) (hSB : B < input.length)
    (hS28 : input.length < 2 ^ 28)
    (hfind : (cmpsOf E B (input.length / B) (input.length % B) input).findIdx?
        (fun c => decide (outBlockSize cap ((input.length / B + 4) * 4)
          (input.length / B) < c.length)) = some k0) :
    (compress E jobs B input out0 cap).size = none ∧
      (compress E jobs B input out0 cap).subs =
        (cmpDescs jobs B (input.length / B) (input.length % B)
          ((input.length / B + 4) * 4)
          (outBlockSize cap ((input.length / B + 4) * 4) (input.length / B))).take
          (min (input.length / B + 1) (k0 + jobs)) ∧
      0 < (compress E jobs B input out0 cap).subs.length := by
  have hds : input.length / B ≤ input.length := Nat.div_le_self _ _
  have hb32 : input.length / B < 2 ^ 32 := by omega
  have hl32 : input.length % B < 2 ^ 32 :=
    Nat.lt_of_le_of_lt (Nat.mod_le _ _) (by omega)
  have ho32 : (input.length / B + 4) * 4 < 2 ^ 32 := by omega
  rw [compress_multi_fail_eq E jobs B input out0 cap k0 hSB hb32 hl32 ho32 hfind]
  refine ⟨rfl, rfl, ?_⟩
  simp only [List.length_take, cmpDescs, List.length_map, List.length_range]
  have h2 : 0 < k0 + jobs := by omega
  exact lt_min_iff.mpr ⟨lt_min_iff.mpr ⟨Nat.succ_pos _, h2⟩, Nat.succ_pos _⟩

/-- Witness for C5's theorem: the counterexample call, through the
theorem. -/
theorem c5_no_pre_submission_check_witness :
    (1 : Nat) ≤ 2 ∧
      (compress toyEngine 2 4 [7, 7, 7, 7, 7, 7, 7, 7] (fun _ => 0) 25).size = none :=
  ⟨by decide,
    (c5_no_pre_submission_check toyEngine 2 4 [7, 7, 7, 7, 7, 7, 7, 7] (fun _ => 0) 25 0
      (by decide) (by decide) (by decide) (by decide)).1⟩

/-! ## Claim C6 -/

/-- C6 counterexample: 5 bytes with block size 2 give `full_blocks = 2`,
`last_block_size = 1`, so the claimed `T = 3` and window size
`(36 − 24)/(T+1) = 3`; but the code divides by `blocks + 1 = full_blocks +
1 = 3`, giving windows of size 4 — the submitted descriptor's output window
is not one of the claimed `T+1` windows. -/
theorem c6_counterexample :
    ((compress toyEngine 3 2 [9, 9, 9, 9, 9] (fun _ => 0) 36).subs.getD 0
        ⟨JobId.single, 0, 0, 0, 0⟩).outLen = 4 ∧
      (36 - (5 / 2 + 4) * 4) /
        ((5 / 2 + (if (5 : Nat) % 2 = 0 then 0 else 1)) + 1) = 3 := by
  constructor
  · decide
  · decide

/-- C6 (amended): the post-header region is divided into `full_blocks + 1`
(not `T + 1`) equal scratch windows of size
`(output_capacity − header_offset) / (full_blocks + 1)`, where
`full_blocks = S / block_size`; this count equals `T + 1` exactly when
`block_size` divides `S` (otherwise it is `T`).  Every submitted
descriptor's output window is one of these windows (window `k` for block
`k`). -/
theorem c6_scratch_windows (E : Engine) (jobs B : Nat) (input : List Nat) (out0 : Mem)
    (cap : Nat) (hSB : B < input.length) (hS28 : input.length < 2 ^ 28)
    (hoff : (input.length / B + 4) * 4 ≤ cap) (hcap : cap < 2 ^ 64) :
    ∀ d ∈ (compress E jobs B input out0 cap).subs,
      ∃ k, k ≤ input.length / B ∧
        d.outLen = (cap - (input.length / B + 4) * 4) / (input.length / B + 1) ∧
        d.outOff = (input.length / B + 4) * 4 +
          k * ((cap - (input.length / B + 4) * 4) / (input.length / B + 1)) := by
  have hds : input.length / B ≤ input.length := Nat.div_le_self _ _
  have hb32 : input.length / B < 2 ^ 32 := by omega
  have hl32 : input.length % B < 2 ^ 32 :=
    Nat.lt_of_le_of_lt (Nat.mod_le _ _) (by omega)
  have ho32 : (input.length / B + 4) * 4 < 2 ^ 32 := by omega
  have hobs := outBlockSize_eq cap ((input.length / B + 4) * 4) (input.length / B) hoff hcap
  have hmem : ∀ d ∈ cmpDescs jobs B (input.length / B) (input.length % B)
      ((input.length / B + 4) * 4)
      (outBlockSize cap ((input.length / B + 4) * 4) (input.length / B)),
      ∃ k, k ≤ input.length / B ∧
        d.outLen = (cap - (input.length / B + 4) * 4) / (input.length / B + 1) ∧
        d.outOff = (input.length / B + 4) * 4 +
          k * ((cap - (input.length / B + 4) * 4) / (input.length / B + 1)) := by
    intro d hd
    simp only [cmpDescs, List.mem_map, List.mem_range] at hd
    obtain ⟨k, hk, rfl⟩ := hd
    exact ⟨k, by omega, by simp [hobs], by simp [hobs]⟩
  intro d hd
  rcases hfind : (cmpsOf E B (input.length / B) (input.length % B) input).findIdx?
      (fun c => decide (outBlockSize cap ((input.length / B + 4) * 4)
        (input.length / B) < c.length)) with _ | k0
  · rw [compress_multi_ok_eq E jobs B input out0 cap hSB hb32 hl32 ho32 hfind] at hd
    exact hmem d hd
  · rw [compress_multi_fail_eq E jobs B input out0 cap k0 hSB hb32 hl32 ho32 hfind] at hd
    exact hmem d (List.mem_of_mem_take hd)

/-- Witness for C6's theorem: the 5-byte call of the counterexample; its
first descriptor lies in window 0 of size `(36-24)/3 = 4`. -/
theorem c6_scratch_windows_witness :
    (2 : Nat) < 5 ∧
      ∃ k, k ≤ 5 / 2 ∧
        (Descriptor.outLen ⟨JobId.pool 0, 0, 2, 24, 4⟩ : Nat) =
          (36 - (5 / 2 + 4) * 4) / (5 / 2 + 1) ∧
        (Descriptor.outOff ⟨JobId.pool 0, 0, 2, 24, 4⟩ : Nat) =
          (5 / 2 + 4) * 4 + k * ((36 - (5 / 2 + 4) * 4) / (5 / 2 + 1)) :=
  ⟨by decide,
    c6_scratch_windows toyEngine 3 2 [9, 9, 9, 9, 9] (fun _ => 0) 36 (by decide)
      (by decide) (by decide) (by decide) ⟨JobId.pool 0, 0, 2, 24, 4⟩ (by decide)⟩

/-! ## Claim C10 -/

/-- C10: when the input size is an exact positive multiple of the block
size, `compress` submits `full_blocks + 1` descriptors — the last one with
a zero-length input window (`available_in = last_block_size = 0`) — and
writes `full_blocks + 1` table entries (words `3 .. 3 + full_blocks`),
while the header's `blocks` word declares only `full_blocks = S /
block_size`: the frame carries one more payload segment and table entry
than its declared block count. -/
theorem c10_trailing_zero_block (E : Engine) (jobs B : Nat) (input : List Nat)
    (out0 : Mem) (cap : Nat) (hSB : B < input.length)
    (hmul : input.length % B = 0) (hS28 : input.length < 2 ^ 28)
    (hfind : (cmpsOf E B (input.length / B) (input.length % B) input).findIdx?
        (fun c => decide (outBlockSize cap ((input.length / B + 4) * 4)
          (input.length / B) < c.length)) = none) :
    (compress E jobs B input out0 cap).subs.length = input.length / B + 1 ∧
      ((compress E jobs B input out0 cap).subs.getD (input.length / B)
        ⟨JobId.single, 0, 0, 0, 0⟩).inLen = 0 ∧
      readU32 (compress E jobs B input out0 cap).mem 8 = input.length / B ∧
      (∀ k, k ≤ input.length / B →
        readU32 (compress E jobs B input out0 cap).mem (12 + 4 * k) =
          ((cmpsOf E B (input.length / B) (input.length % B) input).getD k []).length %
            2 ^ 32) := by
  have hds : input.length / B ≤ input.length := Nat.div_le_self _ _
  have hb32 : input.length / B < 2 ^ 32 := by omega
  have hl32 : input.length % B < 2 ^ 32 :=
    Nat.lt_of_le_of_lt (Nat.mod_le _ _) (by omega)
  have ho32 : (input.length / B + 4) * 4 < 2 ^ 32 := by omega
  rw [compress_multi_ok_eq E jobs B input out0 cap hSB hb32 hl32 ho32 hfind]
  refine ⟨?_, ?_, ?_, ?_⟩
  · simp [cmpDescs]
  · rw [cmpDescs, getD_map_range _ _ _ _ (by omega)]
    simp [inLenC, hmul]
  · have h12 : 12 ≤ (input.length / B + 4) * 4 :=
      le_trans (by norm_num) (Nat.mul_le_mul_right 4 (Nat.le_add_left 4 _))
    rw [frame_readU32_low _ _ _ _ _ _ 8 (by omega) h12, hdrMem_readU32_8,
      Nat.mod_eq_of_lt hb32]
  · intro k hk
    have hklen : k < (cmpsOf E B (input.length / B) (input.length % B) input).length := by
      simp only [cmpsOf, List.length_map, List.length_range]
      omega
    have htab : 12 + 4 * k + 4 ≤ (input.length / B + 4) * 4 := by
      have h1 : (k + 4) * 4 ≤ (input.length / B + 4) * 4 :=
        Nat.mul_le_mul_right 4 (Nat.add_le_add_right hk 4)
      omega
    exact frame_readU32_tab _ _ _ _ _ _ k hklen htab

/-- Witness for C10's theorem: 8 bytes with block size 4 — three
descriptors for a declared block count of 2. -/
theorem c10_trailing_zero_block_witness :
    (4 : Nat) < 8 ∧ (8 : Nat) % 4 = 0 ∧
      (compress toyEngine 4 4 [7, 7, 7, 7, 7, 7, 7, 7] (fun _ => 0) 30).subs.length =
        8 / 4 + 1 :=
  ⟨by decide, by decide,
    (c10_trailing_zero_block toyEngine 4 4 [7, 7, 7, 7, 7, 7, 7, 7] (fun _ => 0) 30
      (by decide) (by decide) (by decide) (by decide)).1⟩

/-! ## Claim C2 -/

/-- C2 counterexample: in the frame produced by compressing 8 bytes with
block size 4, bytes 12-15 hold the first table entry (the compressed size
1 of block 0), not a zero reserved word — the writer never zeroes bytes
12-15 and the table does not begin at byte 16. -/
theorem c2_counterexample :
    readU32 (compress toyEngine 4 4 [7, 7, 7, 7, 7, 7, 7, 7] (fun _ => 0) 30).mem 12 =
        1 ∧
      fetch (compress toyEngine 4 4 [7, 7, 7, 7, 7, 7, 7, 7] (fun _ => 0) 30).mem 12 4 =
        [1, 0, 0, 0] := by
  constructor
  · decide
  · decide

/-- C2 (amended): there is no reserved header word.  In every multi-block
frame the per-block compressed-size table begins at byte offset 12 (word
index 3): entry `k` occupies bytes `12 + 4k .. 15 + 4k`, the `blocks + 1`
entries end exactly at `header_offset = (blocks + 4)·4 = 12 + 4·(blocks +
1)` where the payload starts, and the reader fetches entry `k` from the
same offset `4·(k + 3) = 12 + 4k` (so bytes 12-15 are entry 0, which both
sides use). -/
theorem c2_table_at_offset_12 (E : Engine) (jobs B : Nat) (input : List Nat)
    (out0 : Mem) (cap : Nat) (hSB : B < input.length) (hS28 : input.length < 2 ^ 28)
    (hfind : (cmpsOf E B (input.length / B) (input.length % B) input).findIdx?
        (fun c => decide (outBlockSize cap ((input.length / B + 4) * 4)
          (input.length / B) < c.length)) = none) :
    (∀ k, k ≤ input.length / B →
        readU32 (compress E jobs B input out0 cap).mem (12 + 4 * k) =
          ((cmpsOf E B (input.length / B) (input.length % B) input).getD k []).length %
            2 ^ 32 ∧
        tabEntry (compress E jobs B input out0 cap).mem k =
          readU32 (compress E jobs B input out0 cap).mem (12 + 4 * k)) ∧
      (input.length / B + 4) * 4 = 12 + 4 * (input.length / B + 1) := by
  have hds : input.length / B ≤ input.length := Nat.div_le_self _ _
  have hb32 : input.length / B < 2 ^ 32 := by omega
  have hl32 : input.length % B < 2 ^ 32 :=
    Nat.lt_of_le_of_lt (Nat.mod_le _ _) (by omega)
  have ho32 : (input.length / B + 4) * 4 < 2 ^ 32 := by omega
  constructor
  · intro k hk
    constructor
    · rw [compress_multi_ok_eq E jobs B input out0 cap hSB hb32 hl32 ho32 hfind]
      have hklen : k < (cmpsOf E B (input.length / B) (input.length % B) input).length := by
        simp only [cmpsOf, List.length_map, List.length_range]
        omega
      have htab : 12 + 4 * k + 4 ≤ (input.length / B + 4) * 4 := by
        have h1 : (k + 4) * 4 ≤ (input.length / B + 4) * 4 :=
          Nat.mul_le_mul_right 4 (Nat.add_le_add_right hk 4)
        omega
      exact frame_readU32_tab _ _ _ _ _ _ k hklen htab
    · unfold tabEntry
      congr 1
      omega
  · omega

/-- Witness for C2's theorem: the 8-byte frame; its entry 0 sits at byte
12. -/
theorem c2_table_at_offset_12_witness :
    (4 : Nat) < 8 ∧
      readU32 (compress toyEngine 4 4 [7, 7, 7, 7, 7, 7, 7, 7] (fun _ => 0) 30).mem
          (12 + 4 * 0) =
        ((cmpsOf toyEngine 4 (8 / 4) (8 % 4) [7, 7, 7, 7, 7, 7, 7, 7]).getD 0 []).length %
          2 ^ 32 :=
  ⟨by decide,
    ((c2_table_at_offset_12 toyEngine 4 4 [7, 7, 7, 7, 7, 7, 7, 7] (fun _ => 0) 30
      (by decide) (by decide) (by decide)).1 0 (by decide)).1⟩

/-! ## Branch reductions of `decompress` -/

theorem decompress_capfail_eq (E : Engine) (jobs : Nat) (comp : Mem) (compSize : Nat)
    (out0 : Mem) (cap : Nat)
    (h : cap < (hdrBlocks comp * hdrBlockSize comp + hdrLastSize comp) % 2 ^ 32) :
    decompress E jobs comp compSize out0 cap = ⟨out0, none, []⟩ := by
  simp only [decompress, if_pos h]

theorem decompress_abort_eq (E : Engine) (jobs : Nat) (comp : Mem) (compSize : Nat)
    (out0 : Mem) (cap i0 : Nat)
    (hcap : ¬ cap < (hdrBlocks comp * hdrBlockSize comp + hdrLastSize comp) % 2 ^ 32)
    (hb : ¬ hdrBlocks comp = 0)
    (hfind : (List.range (hdrBlocks comp + 1)).find? (decAbortAt E jobs comp) = some i0) :
    decompress E jobs comp compSize out0 cap =
      ⟨decWrites E comp out0 (i0 - jobs), none, (decDescs jobs comp).take i0⟩ := by
  simp only [decompress, if_neg hcap, if_neg hb, hfind]

theorem decompress_multi_ok_eq (E : Engine) (jobs : Nat) (comp : Mem) (compSize : Nat)
    (out0 : Mem) (cap : Nat)
    (hcap : ¬ cap < (hdrBlocks comp * hdrBlockSize comp + hdrLastSize comp) % 2 ^ 32)
    (hb : ¬ hdrBlocks comp = 0)
    (hfind : (List.range (hdrBlocks comp + 1)).find? (decAbortAt E jobs comp) = none) :
    decompress E jobs comp compSize out0 cap =
      ⟨decWrites E comp out0 (hdrBlocks comp + 1),
        some ((hdrBlocks comp * hdrBlockSize comp + hdrLastSize comp) % 2 ^ 32),
        decDescs jobs comp⟩ := by
  simp only [decompress, if_neg hcap, if_neg hb, hfind]

/-! ## Claim C4 -/

/-- A crafted frame violating the claimed `block_size ≥ 1` rule:
`block_size = 0`, `blocks = 1`, `last_block_size = 0`, both table entries
zero. -/
def c4zeroBS : Mem :=
  mstore (mstore (mstore (mstore (mstore (fun _ => 0) 0 (u32Bytes 0)) 4 (u32Bytes 0)) 8
    (u32Bytes 1)) 12 (u32Bytes 0)) 16 (u32Bytes 0)

/-- C4 counterexample: `decompress` has no `block_size ≥ 1` check.  On a
crafted frame with `block_size = 0` it submits both (zero-byte) blocks and
updates `*decompressed_size` to 0 instead of failing with `BadFrame` —
refuting "header validation fails whenever block_size < 1". -/
theorem c4_counterexample :
    hdrBlockSize c4zeroBS = 0 ∧
      (decompress toyEngine 1 c4zeroBS 28 (fun _ => 0) 5).size = some 0 ∧
      (decompress toyEngine 1 c4zeroBS 28 (fun _ => 0) 5).subs.length = 2 := by
  refine ⟨by decide, by decide, by decide⟩

/-- C4 (amended): `decompress` returns without updating
`*decompressed_size` when the (32-bit) product check `blocks·block_size +
last_block_size > capacity` fails — then before any submission — and when
some table entry `k ≤ blocks` exceeds its per-block output budget
(`block_size` for `k < blocks`, `last_block_size` for `k = blocks`; blocks
before the offending one have already been submitted).  There is no
`block_size ≥ 1` rule. -/
theorem c4_validation (E : Engine) (jobs : Nat) (comp : Mem) (compSize : Nat)
    (out0 : Mem) (cap : Nat) :
    (cap < (hdrBlocks comp * hdrBlockSize comp + hdrLastSize comp) % 2 ^ 32 →
        (decompress E jobs comp compSize out0 cap).size = none ∧
        (decompress E jobs comp compSize out0 cap).subs = []) ∧
      (∀ k, k ≤ hdrBlocks comp → hdrBlocks comp ≠ 0 →
        ¬ cap < (hdrBlocks comp * hdrBlockSize comp + hdrLastSize comp) % 2 ^ 32 →
        availOut comp k < tabEntry comp k →
        (decompress E jobs comp compSize out0 cap).size = none) := by
  constructor
  · intro h
    rw [decompress_capfail_eq E jobs comp compSize out0 cap h]
    exact ⟨rfl, rfl⟩
  · intro k hk hb hcap hval
    rcases hfind : (List.range (hdrBlocks comp + 1)).find? (decAbortAt E jobs comp) with
      _ | i0
    · exfalso
      have hnone := List.find?_eq_none.mp hfind k (List.mem_range.mpr (by omega))
      apply hnone
      simp only [decAbortAt, Bool.or_eq_true, decide_eq_true_eq]
      exact Or.inl hval
    · rw [decompress_abort_eq E jobs comp compSize out0 cap i0 hcap hb hfind]

/-- The adversarial frame of the spec's seed scenario 6: `blocks = 3`,
`block_size = 10`, `last_block_size = 0`, `per_block_size[0] = 100`. -/
def c4craft : Mem :=
  mstore (mstore (mstore (mstore (fun _ => 0) 0 (u32Bytes 10)) 4 (u32Bytes 0)) 8
    (u32Bytes 3)) 12 (u32Bytes 100)

/-- Witness for C4's theorem: scenario 6 is rejected — the oversized first
table entry makes the call return with no size update. -/
theorem c4_validation_witness :
    ((0 : Nat) ≤ hdrBlocks c4craft ∧ hdrBlocks c4craft ≠ 0 ∧
        ¬ (30 : Nat) < (hdrBlocks c4craft * hdrBlockSize c4craft + hdrLastSize c4craft) %
          2 ^ 32 ∧
        availOut c4craft 0 < tabEntry c4craft 0) ∧
      (decompress toyEngine 2 c4craft 50 (fun _ => 0) 30).size = none :=
  ⟨⟨by decide, by decide, by decide, by decide⟩,
    (c4_validation toyEngine 2 c4craft 50 (fun _ => 0) 30).2 0 (by decide) (by decide)
      (by decide) (by decide)⟩

/-! ## Claim C1 -/

/-- The model round-trips when the input size is not a multiple of the
block size: 9 bytes, block size 4, two pool jobs — decompressing the
compressed frame restores the input and reports its size.  (This isolates
the failure below to the exact-multiple frames, not to the model.) -/
theorem qpl_model_roundtrip_sample :
    (compress toyEngine 2 4 [7, 7, 7, 7, 7, 7, 7, 7, 9] (fun _ => 0) 27).size =
        some 27 ∧
      (decompress toyEngine 2
          (compress toyEngine 2 4 [7, 7, 7, 7, 7, 7, 7, 7, 9] (fun _ => 0) 27).mem 27
          (fun _ => 0) 9).size = some 9 ∧
      fetch (decompress toyEngine 2
          (compress toyEngine 2 4 [7, 7, 7, 7, 7, 7, 7, 7, 9] (fun _ => 0) 27).mem 27
          (fun _ => 0) 9).mem 0 9 = [7, 7, 7, 7, 7, 7, 7, 7, 9] := by
  refine ⟨by decide, by decide, by decide⟩

/-- C1: the round-trip law fails on inputs whose size is an exact positive
multiple of the block size.  With 8 bytes and block size 4, `compress`
succeeds (frame of 28 bytes) but submits a trailing zero-length block whose
compressed stream is non-empty, and its table entry (2) exceeds the
decompression budget `last_block_size = 0`, so `decompress` rejects the
frame produced by `compress` itself and never updates
`*decompressed_size`.  At the boundary `S = block_size` (4 bytes, block
size 4) the single-block path writes `blocks = 1`, `decompress` takes the
multi-block path, misreads the unwritten table word, reports success with
size 4, and leaves the output untouched (zeroes instead of the input). -/
theorem c1_roundtrip_fails_on_exact_multiple :
    (compress toyEngine 4 4 [7, 7, 7, 7, 7, 7, 7, 7] (fun _ => 0) 30).size = some 28 ∧
      (decompress toyEngine 4
          (compress toyEngine 4 4 [7, 7, 7, 7, 7, 7, 7, 7] (fun _ => 0) 30).mem 28
          (fun _ => 0) 8).size = none ∧
      (compress toyEngine 4 4 [7, 7, 7, 7] (fun _ => 0) 30).size = some 21 ∧
      (decompress toyEngine 4 (compress toyEngine 4 4 [7, 7, 7, 7] (fun _ => 0) 30).mem
          21 (fun _ => 0) 4).size = some 4 ∧
      fetch (decompress toyEngine 4
          (compress toyEngine 4 4 [7, 7, 7, 7] (fun _ => 0) 30).mem 21
          (fun _ => 0) 4).mem 0 4 = [0, 0, 0, 0] := by
  refine ⟨by decide, by decide, by decide, by decide, by decide⟩

end QplHelper
